import Mathlib

/-!
Verification of the core logic of `avail_wheels.py`: the wheel-filename tag
parser (`Wheel.WHEEL_RE` / `Wheel.parse_tags`), the `LooseVersion` ordering
from `distutils.version`, the version reducer (`latest_versions`), the sorter
(`sort`) and the collector (`get_wheels`).

Modelling conventions:
* Python strings are modelled as Lean `String` / `List Char`; the `\w` class
  is modelled over its ASCII fragment (all inputs appearing in the repository
  are ASCII).
* fallible Python code (raising) is modelled with `Except`/`Option`.
* Python's `list.sort` (Timsort) is a stable sort; it is modelled by a stable
  insertion sort `pySort`.  For a total transitive boolean relation a stable
  sort's output is uniquely determined, so the choice of stable algorithm is
  immaterial.
-/

namespace AvailWheels

/-! ## The regular expression

`WHEEL_RE = (?P<arch>\w+)/(?P<name>[\w.]+)-(?P<version>(?:[\w\.]+)?)`
`           (?:[\+-](?P<build>\w+))*?-(?P<python>[\w\.]+)-(?P<abi>\w+)-(?P<platform>\w+)`
used with `re.match` (anchored at the start, the tail of the input may be left
unconsumed).

The backtracking search of CPython's engine collapses to a deterministic
parse for this particular pattern:
* `\w+` (resp. `[\w.]+`) followed by a literal that is outside the class can
  only match the full maximal run: any shorter prefix leaves a class
  character in front of the literal, and the continuation fails immediately.
* the `version` group `(?:[\w\.]+)?` is followed by either the literal `-`
  (zero iterations of the build group) or `[\+-]` (one more iteration); both
  characters are outside `[\w.]`, so only the maximal run can ever succeed,
  and backtracking into `version` is useless.
* inside the lazy group `(?:[\+-](?P<build>\w+))*?` the token `\w+` is
  followed by `-` or `[\+-]`, so again only the maximal run can succeed.
* the lazy `*?` tries the continuation (zero further iterations) first and
  only on failure consumes one more `[\+-]\w+` iteration, overwriting the
  `build` capture each time (the last iteration's capture is kept).
-/

/-- ASCII fragment of the regex class `\w`. -/
def isWordChar (c : Char) : Bool := c.isAlphanum || c = '_'

/-- ASCII fragment of the regex class `[\w.]`. -/
def isWordDot (c : Char) : Bool := isWordChar c || c = '.'

/-- The tail `-(?P<python>[\w\.]+)-(?P<abi>\w+)-(?P<platform>\w+)` of the
pattern.  Returns the three captures `(python, abi, platform)`. -/
def matchTail (s : List Char) : Option (List Char × List Char × List Char) :=
  match s with
  | '-' :: s₁ =>
    let py := s₁.takeWhile isWordDot
    if py.isEmpty then none else
    match s₁.dropWhile isWordDot with
    | '-' :: s₂ =>
      let ab := s₂.takeWhile isWordChar
      if ab.isEmpty then none else
      match s₂.dropWhile isWordChar with
      | '-' :: s₃ =>
        let pl := s₃.takeWhile isWordChar
        if pl.isEmpty then none else some (py, ab, pl)
      | _ => none
    | _ => none
  | _ => none

/-- The lazy group `(?:[\+-](?P<build>\w+))*?` followed by the tail.
`build` is the capture accumulated by previous iterations (`none` before the
first iteration; each iteration overwrites it).  Returns
`(build, python, abi, platform)`.

The `fuel` argument only makes the recursion structural (so that the kernel
can evaluate the function): every iteration of the group consumes at least
two characters of `s`, so any fuel above `s.length` is enough and the `0`
case is never reached from `matchStar` (see `matchStarF_fuel`). -/
def matchStarF : Nat → Option (List Char) → List Char →
    Option (Option (List Char) × List Char × List Char × List Char)
  | 0, _, _ => none
  | fuel + 1, build, s =>
    match matchTail s with
    | some (py, ab, pl) => some (build, py, ab, pl)
    | none =>
      match s with
      | [] => none
      | c :: rest =>
        if c = '+' || c = '-' then
          let r := rest.takeWhile isWordChar
          if r.isEmpty then none
          else matchStarF fuel (some r) (rest.dropWhile isWordChar)
        else none

/-- The lazy build group with enough fuel for the whole input. -/
def matchStar (build : Option (List Char)) (s : List Char) :
    Option (Option (List Char) × List Char × List Char × List Char) :=
  matchStarF (s.length + 1) build s

/-- Captures of a successful `WHEEL_RE.match`. -/
structure Tags where
  arch : List Char
  name : List Char
  version : List Char
  build : Option (List Char)
  python : List Char
  abi : List Char
  platform : List Char
deriving DecidableEq, Repr

/-- Model of `WHEEL_RE.match` on a character list:
`(?P<arch>\w+)/(?P<name>[\w.]+)-(?P<version>(?:[\w\.]+)?)` followed by
`matchStar`. -/
def wheelMatch (s : List Char) : Option Tags :=
  let archRun := s.takeWhile isWordChar
  if archRun.isEmpty then none else
  match s.dropWhile isWordChar with
  | '/' :: s₁ =>
    let nameRun := s₁.takeWhile isWordDot
    if nameRun.isEmpty then none else
    match s₁.dropWhile isWordDot with
    | '-' :: s₂ =>
      let verRun := s₂.takeWhile isWordDot
      match matchStar none (s₂.dropWhile isWordDot) with
      | some (b, py, ab, pl) => some ⟨archRun, nameRun, verRun, b, py, ab, pl⟩
      | none => none
    | _ => none
  | _ => none

/-- The representation of a wheel and its tags (class `Wheel`).
`build` is `none` when the build group did not participate in the match
(`m.group('build') is None`). -/
structure Wheel where
  filename : String
  arch : String
  name : String
  version : String
  build : Option String
  python : String
  abi : String
  platform : String
deriving DecidableEq, Repr

/-- Model of `Wheel.parse_tags` (together with `Wheel.__init__` with `parse=True`):
match `WHEEL_RE` against the filename and populate the tags, or raise
`Exception(f"Could not get tags for : {wheel}")`. -/
def Wheel.parse_tags (wheel : String) : Except String Wheel :=
  match wheelMatch wheel.toList with
  | some t =>
    .ok ⟨wheel, t.arch.asString, t.name.asString, t.version.asString,
         t.build.map List.asString, t.python.asString, t.abi.asString, t.platform.asString⟩
  | none => .error ("Could not get tags for : " ++ wheel)

/-! ## `distutils.version.LooseVersion`

`component_re = re.compile(r'(\d+ | [a-z]+ | \.)', re.VERBOSE)`;
`parse` keeps the non-empty split pieces that are not `'.'` and converts the
digit runs to `int`.  Comparison is Python list comparison of the component
lists: elementwise, first difference decides; a numeric and a string
component are never equal and comparing them with `<` raises `TypeError`
(Python 3). -/

/-- One parsed version component: an `int` or a `str`. -/
inductive VComp where
  | num (n : Nat)
  | str (s : List Char)
deriving DecidableEq, Repr

/-- Python `int` of a run of decimal digits. -/
def digitsToNat (l : List Char) : Nat :=
  l.foldl (fun n c => n * 10 + (c.toNat - 48)) 0

/-- Character class of `component_re`'s string alternative `[a-z]`. -/
def isLowerAZ (c : Char) : Bool := 'a' ≤ c && c ≤ 'z'

/-- A character that starts (and continues) a piece of unmatched text of the
`component_re.split`: anything that is not a digit, not `[a-z]` and not a
dot. -/
def isOtherChar (c : Char) : Bool := !(c.isDigit || isLowerAZ c || c = '.')

/-- Model of `LooseVersion.parse`: split the string into maximal digit runs, maximal
`[a-z]` runs and maximal runs of remaining characters (the unmatched split
pieces); drop the dots; convert digit runs to numbers.

As in `matchStarF`, `fuel` makes the recursion structural: every step
consumes at least one character, so any fuel above `s.length` is enough. -/
def looseParseF : Nat → List Char → List VComp
  | 0, _ => []
  | fuel + 1, s =>
    match s with
    | [] => []
    | c :: cs =>
      if c.isDigit then
        .num (digitsToNat (c :: cs.takeWhile Char.isDigit)) ::
          looseParseF fuel (cs.dropWhile Char.isDigit)
      else if isLowerAZ c then
        .str (c :: cs.takeWhile isLowerAZ) :: looseParseF fuel (cs.dropWhile isLowerAZ)
      else if c = '.' then
        looseParseF fuel cs
      else
        .str (c :: cs.takeWhile isOtherChar) :: looseParseF fuel (cs.dropWhile isOtherChar)

/-- Model of `LooseVersion.parse` with enough fuel for the whole input. -/
def looseParse (s : List Char) : List VComp :=
  looseParseF (s.length + 1) s

/-- Three-way comparison of naturals. -/
def natCmp (a b : Nat) : Ordering :=
  if a < b then .lt else if a = b then .eq else .gt

/-- Python string comparison (by code points, lexicographic). -/
def strCmp : List Char → List Char → Ordering
  | [], [] => .eq
  | [], _ :: _ => .lt
  | _ :: _, [] => .gt
  | a :: as, b :: bs =>
    match natCmp a.toNat b.toNat with
    | .eq => strCmp as bs
    | o => o

/-- Comparison of two version components as Python 3 does it: `none` models
the `TypeError` raised when an `int` is compared with a `str`. -/
def vcompCmpO : VComp → VComp → Option Ordering
  | .num a, .num b => some (natCmp a b)
  | .str a, .str b => some (strCmp a b)
  | _, _ => none

/-- Totalised component comparison.  The mixed cases are undefined behaviour
in the source (a `TypeError`); they are totalised with `num < str` so that
sorting is a total function.  Every theorem whose truth could depend on a
mixed comparison carries a hypothesis confining it to the domain where
`vcompCmpO`/`looseCmpO` is defined. -/
def vcompCmp : VComp → VComp → Ordering
  | .num a, .num b => natCmp a b
  | .str a, .str b => strCmp a b
  | .num _, .str _ => .lt
  | .str _, .num _ => .gt

/-- Python list comparison of component lists (partial: `none` models the
`TypeError` on a mixed comparison).  Elements are first tested with `==`
(which never fails: an `int` never equals a `str`), then with `<`. -/
def looseCmpO : List VComp → List VComp → Option Ordering
  | [], [] => some .eq
  | [], _ :: _ => some .lt
  | _ :: _, [] => some .gt
  | a :: as, b :: bs =>
    if a = b then looseCmpO as bs
    else match vcompCmpO a b with
      | some o => some o
      | none => none

/-- Totalised version of `looseCmpO` (see `vcompCmp`). -/
def looseCmp : List VComp → List VComp → Ordering
  | [], [] => .eq
  | [], _ :: _ => .lt
  | _ :: _, [] => .gt
  | a :: as, b :: bs =>
    match vcompCmp a b with
    | .eq => looseCmp as bs
    | o => o

/-- Model of `Wheel.loose_version`: `LooseVersion(self.version)`. -/
def Wheel.loose_version (w : Wheel) : List VComp :=
  looseParse w.version.toList

/-! ## Stable sorting

`pySort le l` models Python's stable `list.sort` / `sorted` (Timsort) with
the boolean relation `le a b` = "`a` may come before `b`": for
`sort(key=k)` the relation is `k a ≤ k b`, for `sort(key=k, reverse=True)`
it is `k a ≥ k b` (Python documents `reverse=True` as using the descending
order while remaining stable).  For a total transitive relation every stable
sort returns the same list, so insertion sort is a faithful model. -/

/-- Insert `a` in front of the first element `b` with `le a b`. -/
def stableInsert (le : α → α → Bool) (a : α) : List α → List α
  | [] => [a]
  | b :: bs => if le a b then a :: b :: bs else b :: stableInsert le a bs

/-- Stable insertion sort. -/
def pySort (le : α → α → Bool) : List α → List α
  | [] => []
  | a :: as => stableInsert le a (pySort le as)

/-! ## `latest_versions` -/

/-- Loose-version key comparison used by
`wheel_list.sort(key=operator.methodcaller('loose_version'), reverse=True)`:
`a` may precede `b` iff its loose version is not smaller. -/
def versionGe (a b : Wheel) : Bool :=
  looseCmp a.loose_version b.loose_version ≠ .lt

/-- Processing of one wheel list by `latest_versions`: sort descending by
loose version, then keep the leading elements whose loose version equals the
first one (`latest == wheel.loose_version()`; `LooseVersion.__eq__` compares
the component lists) and stop at the first strictly smaller one.  On an
empty list `wheel_list[0]` raises `IndexError`, modelled by `none`. -/
def latestGroup (l : List Wheel) : Option (List Wheel) :=
  match pySort versionGe l with
  | [] => none
  | w₀ :: rest =>
    some ((w₀ :: rest).takeWhile (fun w => w.loose_version = w₀.loose_version))

/-- Model of `latest_versions(wheels)`: apply `latestGroup` to every group, keeping
the insertion order of the keys (Python dicts preserve it).  Any raising
group makes the whole call raise. -/
def latest_versions (wheels : List (String × List Wheel)) :
    Option (List (String × List Wheel)) :=
  wheels.mapM (fun p => (latestGroup p.2).map (fun l => (p.1, l)))

/-- A wheel whose loose version is maximal within the group `l`: no member
of `l` has a strictly greater loose version. -/
def isLatestIn (l : List Wheel) (w : Wheel) : Bool :=
  l.all (fun v => versionGe w v)

/-! ## `sort` -/

/-- Model of `str.casefold` on its ASCII fragment (character-wise
lowering). -/
def casefold (s : String) : List Char := s.toList.map Char.toLower

/-- Ascending case-insensitive comparison used by
`sorted(wheels.keys(), key=lambda s: s.casefold())`. -/
def nameLe (a b : String) : Bool :=
  strCmp (casefold a) (casefold b) ≠ .gt

/-- Key comparison of `wheel_list.sort(key=operator.attrgetter('python'), reverse=True)`. -/
def pythonGe (a b : Wheel) : Bool := strCmp a.python.toList b.python.toList ≠ .lt

/-- Key comparison of `wheel_list.sort(key=operator.attrgetter('arch'), reverse=True)`. -/
def archGe (a b : Wheel) : Bool := strCmp a.arch.toList b.arch.toList ≠ .lt

/-- The three successive stable single-key sorts applied to a group by
`sort`: by python descending, then by arch descending, then by loose
version descending. -/
def sortGroup (l : List Wheel) : List Wheel :=
  pySort versionGe (pySort archGe (pySort pythonGe l))

/-- Model of `sorted(wheels.keys(), key=lambda s: s.casefold())`. -/
def sortedNames (wheels : List (String × List Wheel)) : List String :=
  pySort nameLe (wheels.map Prod.fst)

/-- One of the column names of `AVAILABLE_HEADERS`. -/
inductive Column where
  | name | version | build | python | abi | platform | arch
deriving DecidableEq, Repr

/-- Model of `getattr(wheel, column)`; the value is `none` exactly for an absent
build tag (Python `None`). -/
def wheelColumn (w : Wheel) : Column → Option String
  | .name => some w.name
  | .version => some w.version
  | .build => w.build
  | .python => some w.python
  | .abi => some w.abi
  | .platform => some w.platform
  | .arch => some w.arch

/-- Lookup of a name in the wheels dict (assoc list). -/
def groupFor : List (String × List Wheel) → String → List Wheel
  | [], _ => []
  | (n, l) :: rest, name => if n = name then l else groupFor rest name

/-- Model of `sort(wheels, columns)`: case-insensitively sorted names; for each name
the triply sorted group, flattened into rows of the requested columns. -/
def sortTable (wheels : List (String × List Wheel)) (columns : List Column) :
    List (List (Option String)) :=
  (sortedNames wheels).flatMap
    (fun n => (sortGroup (groupFor wheels n)).map (fun w => columns.map (wheelColumn w)))

/-- The within-group order produced by the three stable sorts of `sort`:
primary key loose version descending, secondary key architecture descending,
tertiary key python tag descending (each later key only decides among ties
of the earlier ones). -/
def wheelOrdered (a b : Wheel) : Prop :=
  versionGe a b = true ∧ (versionGe b a = true →
    archGe a b = true ∧ (archGe b a = true → pythonGe a b = true))

/-! ## `get_wheels` and the compatibility check -/

/-- The list `AVAILABLE_PYTHONS = ["2.7", "3.5", "3.6", "3.7"]`. -/
def AVAILABLE_PYTHONS : List String := ["2.7", "3.5", "3.6", "3.7"]

/-- The dict `COMPATIBLE_PYTHON`, as a function.  An unknown key raises `KeyError`
in Python; it is modelled by `[]`, and theorems that touch the mapping
assume the keys come from `AVAILABLE_PYTHONS` (as the argparse `choices`
guarantee). -/
def COMPATIBLE_PYTHON : String → List String
  | "2.7" => ["py2.py3", "py2", "cp27"]
  | "3.5" => ["py2.py3", "py3", "cp35"]
  | "3.6" => ["py2.py3", "py3", "cp36"]
  | "3.7" => ["py2.py3", "py3", "cp37"]
  | _ => []

/-- The inner python loop of `get_wheels`:
`for p in pythons: if wheel.python in COMPATIBLE_PYTHON[p]: ...; break`.
Its only effect is a single append when some requested python is
compatible, so it is the existence check below. -/
def compatibleAny (w : Wheel) (pythons : List String) : Bool :=
  pythons.any (fun p => (COMPATIBLE_PYTHON p).contains w.python)

/-- The compatibility check `is_compatible(wheel, pythons)` of the spec: an
absent (`None`) or empty runtime list yields `False`, otherwise the wheel's
python tag must be compatible with one of the requested versions. -/
def is_compatible (w : Wheel) (pythons : Option (List String)) : Bool :=
  match pythons with
  | none => false
  | some ps => compatibleAny w ps

/-- fnmatch-style glob matching (`*`, `?`, literal characters); both sides
already case-folded by the caller (`re.IGNORECASE`).  As in `matchStarF`,
`fuel` makes the backtracking recursion structural; every step shrinks
`ps.length + s.length`, so any fuel above that sum is enough. -/
def globMatchF : Nat → List Char → List Char → Bool
  | 0, _, _ => false
  | fuel + 1, ps, s =>
    match ps, s with
    | [], [] => true
    | [], _ :: _ => false
    | '*' :: ps, [] => globMatchF fuel ps []
    | '*' :: ps, c :: s => globMatchF fuel ps (c :: s) || globMatchF fuel ('*' :: ps) s
    | '?' :: ps, _ :: s => globMatchF fuel ps s
    | _ :: _, [] => false
    | p :: ps, c :: s => p = c && globMatchF fuel ps s

/-- Glob matching with enough fuel for pattern and input. -/
def globMatch (ps s : List Char) : Bool :=
  globMatchF (ps.length + s.length + 1) ps s

/-- Model of the glob filter of `get_wheels` (fnmatch translation of the pattern,
compiled with IGNORECASE and applied with re.match):
`fnmatch.translate` anchors the pattern at both ends, and `IGNORECASE` is
modelled by lowering both sides (ASCII fragment). -/
def fileMatches (name version file : String) : Bool :=
  globMatch ((name ++ "*" ++ version ++ "*.whl").toList.map Char.toLower)
    (file.toList.map Char.toLower)

/-- The files yielded by `os.walk(f"{path}/{arch}")`, in walk order.  The
filesystem is abstracted as an association of architecture directory names
to their file lists; `os.walk` on a missing directory yields nothing (its
default `onerror=None` swallows the error), hence `[]`. -/
def walkFiles : List (String × List String) → String → List String
  | [], _ => []
  | (a, fl) :: rest, arch => if a = arch then fl else walkFiles rest arch

/-- Appending a wheel to the dict entry of its name
(`wheels[wheel.name].append(wheel)` / `wheels[wheel.name] = [wheel]`). -/
def addWheel : List (String × List Wheel) → Wheel → List (String × List Wheel)
  | [], w => [(w.name, [w])]
  | (n, l) :: rest, w =>
    if n = w.name then (n, l ++ [w]) :: rest else (n, l) :: addWheel rest w

/-- Processing of a single traversed file by the body of the loops of
`get_wheels`: glob filter, `Wheel(f"{arch}/{file}")` (which may raise), then
the python compatibility loop. -/
def processFile (name version : String) (pythons : List String)
    (acc : List (String × List Wheel)) (arch file : String) :
    Option (List (String × List Wheel)) :=
  if fileMatches name version file then
    match Wheel.parse_tags (arch ++ "/" ++ file) with
    | .ok w => some (if compatibleAny w pythons then addWheel acc w else acc)
    | .error _ => none
  else
    some acc

/-- One traversed `(architecture, file)` pair counts for the wheel `w` when
it passes the case-insensitive glob filter, parses to exactly `w`, and `w`
is compatible with one of the requested pythons — the three conditions of
the collector's inclusion rule. -/
def hitFile (name version : String) (pythons : List String) (w : Wheel)
    (af : String × String) : Bool :=
  fileMatches name version af.2 &&
    match Wheel.parse_tags (af.1 ++ "/" ++ af.2) with
    | .ok w' => decide (w' = w) && compatibleAny w' pythons
    | .error _ => false

/-- The traversal order of `get_wheels`: requested architectures in order,
then the files of each architecture in walk order. -/
def traversal (fs : List (String × List String)) (archs : List String) :
    List (String × String) :=
  archs.flatMap (fun a => (walkFiles fs a).map (fun f => (a, f)))

/-- Model of `get_wheels(path, archs, name, version, pythons, latest)`.  The walked
filesystem under `path` is abstracted by `fs` (see `walkFiles`). -/
def get_wheels (fs : List (String × List String)) (archs : List String)
    (name version : String) (pythons : List String) (latest : Bool) :
    Option (List (String × List Wheel)) := do
  let wheels ← (traversal fs archs).foldlM
    (fun acc af => processFile name version pythons acc af.1 af.2) []
  if latest then latest_versions wheels else some wheels

/-! ## Concrete example data (used by the witnesses) -/

/-- A netCDF4-style wheel under `avx2`, as in the repository's tests. -/
def netcdfWheel (version python abi : String) : Wheel :=
  ⟨"avx2/netCDF4-" ++ version ++ "-" ++ python ++ "-" ++ abi ++ "-linux_x86_64.whl",
   "avx2", "netCDF4", version, none, python, abi, "linux_x86_64"⟩

/-- The version multiset `{1.3.2, 1.3.1, 1.3.1, 1.3.1, 1.2.0, 1.3}` of the
version-reduction example. -/
def exampleGroup : List Wheel :=
  [netcdfWheel "1.3.2" "cp36" "cp36m",
   netcdfWheel "1.3.1" "cp36" "cp36m",
   netcdfWheel "1.3.1" "cp35" "cp35m",
   netcdfWheel "1.3.1" "cp27" "cp27mu",
   netcdfWheel "1.2.0" "cp36" "cp36m",
   netcdfWheel "1.3" "cp36" "cp36m"]

/-- A netCDF4-style wheel with an explicit architecture, as in the sort
example of the repository's tests. -/
def sortExampleWheel (arch version python abi : String) : Wheel :=
  ⟨arch ++ "/netCDF4-" ++ version ++ "-" ++ python ++ "-" ++ abi ++ "-linux_x86_64.whl",
   arch, "netCDF4", version, none, python, abi, "linux_x86_64"⟩

/-- A one-group mapping exercising all three sort keys. -/
def sortExample : List (String × List Wheel) :=
  [("netCDF4",
    [sortExampleWheel "avx" "1.3.1" "cp36" "cp36m",
     sortExampleWheel "avx2" "1.3.1" "cp35" "cp35m",
     sortExampleWheel "avx2" "1.3.1" "cp36" "cp36m",
     sortExampleWheel "generic" "1.4.0" "cp27" "cp27mu",
     sortExampleWheel "generic" "1.2.8" "cp27" "cp27mu"])]

/-- An example filesystem: one `avx2` directory holding compatible wheels,
an incompatible `cp27` wheel and a file that does not match the glob. -/
def exampleFS : List (String × List String) :=
  [("avx2", ["netCDF4-1.3.1-cp36-cp36m-linux_x86_64.whl",
             "netCDF4-1.2.0-cp36-cp36m-linux_x86_64.whl",
             "netCDF4-1.3.1-cp27-cp27mu-linux_x86_64.whl",
             "torch_cpu-0.4.0-cp36-cp36m-linux_x86_64.whl",
             "README.txt"])]

/-- The tensorflow example wheel of the tests. -/
def tensorflowWheel : Wheel :=
  ⟨"avx/tensorflow_cpu-1.6.0+computecanada-cp36-cp36m-linux_x86_64.whl", "avx",
   "tensorflow_cpu", "1.6.0", some "computecanada", "cp36", "cp36m", "linux_x86_64"⟩

/-! ## Properties of the comparison functions -/

theorem natCmp_eq_iff (a b : Nat) : natCmp a b = .eq ↔ a = b := by
  unfold natCmp
  split <;> rename_i h
  · constructor
    · intro hh
      exact absurd hh (by simp)
    · omega
  · split <;> rename_i h₂
    · simp [h₂]
    · constructor
      · intro hh
        exact absurd hh (by simp)
      · omega

theorem natCmp_lt_iff (a b : Nat) : natCmp a b = .lt ↔ a < b := by
  unfold natCmp
  split <;> rename_i h
  · simp [h]
  · split <;> rename_i h₂
    · constructor
      · intro hh
        exact absurd hh (by simp)
      · omega
    · constructor
      · intro hh
        exact absurd hh (by simp)
      · omega

theorem natCmp_self (a : Nat) : natCmp a a = .eq := (natCmp_eq_iff a a).mpr rfl

theorem natCmp_swap (a b : Nat) : natCmp b a = (natCmp a b).swap := by
  unfold natCmp
  rcases Nat.lt_trichotomy a b with h | h | h
  · simp [h, Nat.not_lt_of_lt h, Ne.symm (Nat.ne_of_lt h), Ordering.swap]
  · simp [h, Ordering.swap]
  · simp [h, Nat.not_lt_of_lt h, Ne.symm (Nat.ne_of_gt h), Nat.ne_of_gt h, Ordering.swap]

theorem natCmp_lt_trans {a b c : Nat} (h₁ : natCmp a b = .lt) (h₂ : natCmp b c = .lt) :
    natCmp a c = .lt := by
  rw [natCmp_lt_iff] at *
  omega

theorem charEq_of_natCmp_eq {a b : Char} (h : natCmp a.toNat b.toNat = .eq) : a = b :=
  Char.ext (UInt32.toNat.inj ((natCmp_eq_iff _ _).mp h))

theorem strCmp_eq_iff : ∀ (a b : List Char), strCmp a b = .eq ↔ a = b
  | [], [] => by simp [strCmp]
  | [], _ :: _ => by simp [strCmp]
  | _ :: _, [] => by simp [strCmp]
  | a :: as, b :: bs => by
    rw [strCmp]
    cases h : natCmp a.toNat b.toNat with
    | eq => simp [charEq_of_natCmp_eq h, strCmp_eq_iff as bs]
    | lt =>
      apply iff_of_false (by simp)
      intro hh
      rw [List.cons.injEq] at hh
      rw [hh.1, natCmp_self] at h
      exact absurd h (by simp)
    | gt =>
      apply iff_of_false (by simp)
      intro hh
      rw [List.cons.injEq] at hh
      rw [hh.1, natCmp_self] at h
      exact absurd h (by simp)

theorem strCmp_self (a : List Char) : strCmp a a = .eq := (strCmp_eq_iff a a).mpr rfl

theorem strCmp_swap : ∀ (a b : List Char), strCmp b a = (strCmp a b).swap
  | [], [] => rfl
  | [], _ :: _ => rfl
  | _ :: _, [] => rfl
  | a :: as, b :: bs => by
    rw [strCmp, strCmp, natCmp_swap a.toNat b.toNat]
    cases natCmp a.toNat b.toNat <;> simp [Ordering.swap, strCmp_swap as bs]

theorem strCmp_lt_trans : ∀ (a b c : List Char),
    strCmp a b = .lt → strCmp b c = .lt → strCmp a c = .lt
  | [], [], _, h₁, _ => by simp [strCmp] at h₁
  | [], _ :: _, [], _, h₂ => by simp [strCmp] at h₂
  | [], _ :: _, _ :: _, _, _ => rfl
  | a :: as, [], c, h₁, _ => by simp [strCmp] at h₁
  | a :: as, b :: bs, [], _, h₂ => by simp [strCmp] at h₂
  | a :: as, b :: bs, c :: cs, h₁, h₂ => by
    rw [strCmp] at h₁ h₂ ⊢
    cases hab : natCmp a.toNat b.toNat with
    | lt =>
      cases hbc : natCmp b.toNat c.toNat with
      | lt => rw [natCmp_lt_trans hab hbc]
      | eq => rw [← charEq_of_natCmp_eq hbc, hab]
      | gt =>
        rw [hbc] at h₂
        exact absurd h₂ (by simp)
    | eq =>
      have hq := charEq_of_natCmp_eq hab
      subst hq
      rw [hab] at h₁
      cases hac : natCmp a.toNat c.toNat with
      | lt => rfl
      | eq =>
        rw [hac] at h₂
        exact strCmp_lt_trans as bs cs h₁ h₂
      | gt =>
        rw [hac] at h₂
        exact absurd h₂ (by simp)
    | gt =>
      rw [hab] at h₁
      exact absurd h₁ (by simp)

theorem vcompCmp_eq_iff : ∀ (a b : VComp), vcompCmp a b = .eq ↔ a = b
  | .num a, .num b => by simp [vcompCmp, natCmp_eq_iff]
  | .num _, .str _ => by simp [vcompCmp]
  | .str _, .num _ => by simp [vcompCmp]
  | .str a, .str b => by simp [vcompCmp, strCmp_eq_iff]

theorem vcompCmp_self (a : VComp) : vcompCmp a a = .eq := (vcompCmp_eq_iff a a).mpr rfl

theorem vcompCmp_swap : ∀ (a b : VComp), vcompCmp b a = (vcompCmp a b).swap
  | .num a, .num b => natCmp_swap a b
  | .num _, .str _ => rfl
  | .str _, .num _ => rfl
  | .str a, .str b => strCmp_swap a b

theorem vcompCmp_lt_trans : ∀ (a b c : VComp),
    vcompCmp a b = .lt → vcompCmp b c = .lt → vcompCmp a c = .lt
  | .num _, .num _, .num _, h₁, h₂ => by
    simp only [vcompCmp] at *
    exact natCmp_lt_trans h₁ h₂
  | .num _, .num _, .str _, _, _ => rfl
  | .num _, .str _, .str _, _, _ => rfl
  | .str a, .str b, .str c, h₁, h₂ => by
    simp only [vcompCmp] at *
    exact strCmp_lt_trans a b c h₁ h₂
  | .num _, .str _, .num _, _, h₂ => by simp [vcompCmp] at h₂
  | .str _, .num _, _, h₁, _ => by simp [vcompCmp] at h₁
  | .str _, .str _, .num _, _, h₂ => by simp [vcompCmp] at h₂

theorem looseCmp_eq_iff : ∀ (a b : List VComp), looseCmp a b = .eq ↔ a = b
  | [], [] => by simp [looseCmp]
  | [], _ :: _ => by simp [looseCmp]
  | _ :: _, [] => by simp [looseCmp]
  | a :: as, b :: bs => by
    rw [looseCmp]
    cases h : vcompCmp a b with
    | eq => simp [(vcompCmp_eq_iff a b).mp h, looseCmp_eq_iff as bs]
    | lt =>
      apply iff_of_false (by simp)
      intro hh
      rw [List.cons.injEq] at hh
      rw [hh.1, vcompCmp_self] at h
      exact absurd h (by simp)
    | gt =>
      apply iff_of_false (by simp)
      intro hh
      rw [List.cons.injEq] at hh
      rw [hh.1, vcompCmp_self] at h
      exact absurd h (by simp)

theorem looseCmp_self (a : List VComp) : looseCmp a a = .eq := (looseCmp_eq_iff a a).mpr rfl

theorem looseCmp_swap : ∀ (a b : List VComp), looseCmp b a = (looseCmp a b).swap
  | [], [] => rfl
  | [], _ :: _ => rfl
  | _ :: _, [] => rfl
  | a :: as, b :: bs => by
    rw [looseCmp, looseCmp, vcompCmp_swap a b]
    cases vcompCmp a b <;> simp [Ordering.swap, looseCmp_swap as bs]

theorem looseCmp_lt_trans : ∀ (a b c : List VComp),
    looseCmp a b = .lt → looseCmp b c = .lt → looseCmp a c = .lt
  | [], [], _, h₁, h₂ => by
    simp [looseCmp] at h₁
  | [], _ :: _, [], _, h₂ => by simp [looseCmp] at h₂
  | [], _ :: _, _ :: _, _, _ => rfl
  | a :: as, [], c, h₁, _ => by simp [looseCmp] at h₁
  | a :: as, b :: bs, [], _, h₂ => by simp [looseCmp] at h₂
  | a :: as, b :: bs, c :: cs, h₁, h₂ => by
    rw [looseCmp] at h₁ h₂ ⊢
    cases hab : vcompCmp a b with
    | lt =>
      cases hbc : vcompCmp b c with
      | lt => rw [vcompCmp_lt_trans a b c hab hbc]
      | eq => rw [← (vcompCmp_eq_iff b c).mp hbc, hab]
      | gt =>
        rw [hbc] at h₂
        exact absurd h₂ (by simp)
    | eq =>
      have hq := (vcompCmp_eq_iff a b).mp hab
      subst hq
      rw [hab] at h₁
      cases hac : vcompCmp a c with
      | lt => rfl
      | eq =>
        rw [hac] at h₂
        exact looseCmp_lt_trans as bs cs h₁ h₂
      | gt =>
        rw [hac] at h₂
        exact absurd h₂ (by simp)
    | gt =>
      rw [hab] at h₁
      exact absurd h₁ (by simp)

/-- Totality of a "greater or equal" relation derived from a comparison with
a `swap` property. -/
theorem cmpGe_total (cmp : α → α → Ordering) (hswap : ∀ a b, cmp b a = (cmp a b).swap)
    (a b : α) : cmp a b ≠ .lt ∨ cmp b a ≠ .lt := by
  by_cases h : cmp a b = .lt
  · right
    rw [hswap, h]
    simp [Ordering.swap]
  · left
    exact h

/-- Transitivity of a "greater or equal" relation derived from a comparison
with `eq`-characterisation, `swap` and `lt`-transitivity. -/
theorem cmpGe_trans (cmp : α → α → Ordering)
    (heq : ∀ a b, cmp a b = .eq ↔ a = b)
    (hswap : ∀ a b, cmp b a = (cmp a b).swap)
    (hlt : ∀ a b c, cmp a b = .lt → cmp b c = .lt → cmp a c = .lt)
    {a b c : α} (h₁ : cmp a b ≠ .lt) (h₂ : cmp b c ≠ .lt) : cmp a c ≠ .lt := by
  intro hac
  cases hab : cmp a b with
  | lt => exact h₁ hab
  | eq =>
    rw [(heq a b).mp hab] at hac
    exact h₂ hac
  | gt =>
    have hba : cmp b a = .lt := by rw [hswap, hab]; rfl
    exact h₂ (hlt b a c hba hac)

/-- Antisymmetry: mutually "greater or equal" values are equal. -/
theorem cmpGe_antisymm (cmp : α → α → Ordering)
    (heq : ∀ a b, cmp a b = .eq ↔ a = b)
    (hswap : ∀ a b, cmp b a = (cmp a b).swap)
    {a b : α} (h₁ : cmp a b ≠ .lt) (h₂ : cmp b a ≠ .lt) : a = b := by
  cases hab : cmp a b with
  | lt => exact absurd hab h₁
  | eq => exact (heq a b).mp hab
  | gt =>
    have : cmp b a = .lt := by rw [hswap, hab]; rfl
    exact absurd this h₂

/-! ## Properties of the stable sort -/

theorem stableInsert_perm (le : α → α → Bool) (a : α) :
    ∀ (l : List α), (stableInsert le a l).Perm (a :: l)
  | [] => List.Perm.refl _
  | b :: bs => by
    rw [stableInsert]
    split
    · exact List.Perm.refl _
    · exact ((stableInsert_perm le a bs).cons b).trans (List.Perm.swap a b bs)

theorem pySort_perm (le : α → α → Bool) : ∀ (l : List α), (pySort le l).Perm l
  | [] => List.Perm.refl _
  | a :: as =>
    (stableInsert_perm le a (pySort le as)).trans ((pySort_perm le as).cons a)

theorem mem_stableInsert (le : α → α → Bool) (a x : α) (l : List α) :
    x ∈ stableInsert le a l ↔ x = a ∨ x ∈ l := by
  rw [(stableInsert_perm le a l).mem_iff, List.mem_cons]

/-- Stability composed with sortedness: inserting into a list that is sorted
by a total transitive relation `le` and whose pairs additionally satisfy `R`
keeps both, provided the inserted element is `R`-below the whole list.
The relation `le x y ∧ (le y x → R x y)` expresses "sorted by `le`, and any
two elements tied under `le` still satisfy `R` in their output order". -/
theorem stableInsert_pairwise (le : α → α → Bool)
    (htot : ∀ a b, le a b = true ∨ le b a = true)
    (htrans : ∀ a b c, le a b = true → le b c = true → le a c = true)
    (R : α → α → Prop) (a : α) (l : List α)
    (hp : l.Pairwise (fun x y => le x y = true ∧ (le y x = true → R x y)))
    (hR : ∀ b ∈ l, R a b) :
    (stableInsert le a l).Pairwise (fun x y => le x y = true ∧ (le y x = true → R x y)) := by
  induction l with
  | nil => exact List.pairwise_singleton _ a
  | cons b bs ih =>
    rw [List.pairwise_cons] at hp
    obtain ⟨hb, hbs⟩ := hp
    rw [stableInsert]
    split <;> rename_i hab
    · refine List.Pairwise.cons ?_ (List.pairwise_cons.mpr ⟨hb, hbs⟩)
      intro x hx
      rcases List.mem_cons.mp hx with rfl | hx
      · exact ⟨hab, fun _ => hR x (by simp)⟩
      · exact ⟨htrans a b x hab (hb x hx).1, fun _ => hR x (by simp [hx])⟩
    · refine List.Pairwise.cons ?_ (ih hbs (fun x hx => hR x (by simp [hx])))
      intro x hx
      rcases (mem_stableInsert le a x bs).mp hx with rfl | hx
      · refine ⟨?_, fun hax => absurd hax hab⟩
        rcases htot x b with h | h
        · exact absurd h hab
        · exact h
      · exact hb x hx

theorem pySort_pairwise (le : α → α → Bool)
    (htot : ∀ a b, le a b = true ∨ le b a = true)
    (htrans : ∀ a b c, le a b = true → le b c = true → le a c = true)
    (R : α → α → Prop) :
    ∀ (l : List α), l.Pairwise R →
      (pySort le l).Pairwise (fun x y => le x y = true ∧ (le y x = true → R x y))
  | [], _ => List.Pairwise.nil
  | a :: as, hp => by
    rw [pySort]
    refine stableInsert_pairwise le htot htrans R a (pySort le as)
      (pySort_pairwise le htot htrans R as (List.pairwise_cons.mp hp).2) ?_
    intro b hb
    exact (List.pairwise_cons.mp hp).1 b ((pySort_perm le as).mem_iff.mp hb)

/-- Sorting an arbitrary list gives a `le`-sorted list (take `R := True`). -/
theorem pySort_sorted (le : α → α → Bool)
    (htot : ∀ a b, le a b = true ∨ le b a = true)
    (htrans : ∀ a b c, le a b = true → le b c = true → le a c = true)
    (l : List α) : (pySort le l).Pairwise (fun x y => le x y = true) := by
  have h := pySort_pairwise le htot htrans (fun _ _ => True) l
    (List.pairwise_iff_forall_sublist.mpr (fun _ => trivial))
  exact h.imp (fun hh => hh.1)

/-! ## The key relations of the sorts are total and transitive -/

theorem versionGe_total (a b : Wheel) : versionGe a b = true ∨ versionGe b a = true := by
  simp only [versionGe, decide_eq_true_eq]
  exact cmpGe_total looseCmp looseCmp_swap _ _

theorem versionGe_trans (a b c : Wheel) (h₁ : versionGe a b = true)
    (h₂ : versionGe b c = true) : versionGe a c = true := by
  simp only [versionGe, decide_eq_true_eq] at *
  exact cmpGe_trans looseCmp looseCmp_eq_iff looseCmp_swap looseCmp_lt_trans h₁ h₂

theorem pythonGe_total (a b : Wheel) : pythonGe a b = true ∨ pythonGe b a = true := by
  simp only [pythonGe, decide_eq_true_eq]
  exact cmpGe_total strCmp strCmp_swap _ _

theorem pythonGe_trans (a b c : Wheel) (h₁ : pythonGe a b = true)
    (h₂ : pythonGe b c = true) : pythonGe a c = true := by
  simp only [pythonGe, decide_eq_true_eq] at *
  exact cmpGe_trans strCmp strCmp_eq_iff strCmp_swap strCmp_lt_trans h₁ h₂

theorem archGe_total (a b : Wheel) : archGe a b = true ∨ archGe b a = true := by
  simp only [archGe, decide_eq_true_eq]
  exact cmpGe_total strCmp strCmp_swap _ _

theorem archGe_trans (a b c : Wheel) (h₁ : archGe a b = true)
    (h₂ : archGe b c = true) : archGe a c = true := by
  simp only [archGe, decide_eq_true_eq] at *
  exact cmpGe_trans strCmp strCmp_eq_iff strCmp_swap strCmp_lt_trans h₁ h₂

theorem cmpLe_total (cmp : α → α → Ordering) (hswap : ∀ a b, cmp b a = (cmp a b).swap)
    (a b : α) : cmp a b ≠ .gt ∨ cmp b a ≠ .gt := by
  by_cases h : cmp a b = .gt
  · right
    rw [hswap, h]
    simp [Ordering.swap]
  · left
    exact h

theorem cmp_gt_trans (cmp : α → α → Ordering)
    (hswap : ∀ a b, cmp b a = (cmp a b).swap)
    (hlt : ∀ a b c, cmp a b = .lt → cmp b c = .lt → cmp a c = .lt)
    {a b c : α} (h₁ : cmp a b = .gt) (h₂ : cmp b c = .gt) : cmp a c = .gt := by
  have h₁' : cmp b a = .lt := by rw [hswap, h₁]; rfl
  have h₂' : cmp c b = .lt := by rw [hswap, h₂]; rfl
  have h₃ := hlt c b a h₂' h₁'
  rw [hswap c a, h₃]
  rfl

theorem cmpLe_trans (cmp : α → α → Ordering)
    (heq : ∀ a b, cmp a b = .eq ↔ a = b)
    (hswap : ∀ a b, cmp b a = (cmp a b).swap)
    (hlt : ∀ a b c, cmp a b = .lt → cmp b c = .lt → cmp a c = .lt)
    {a b c : α} (h₁ : cmp a b ≠ .gt) (h₂ : cmp b c ≠ .gt) : cmp a c ≠ .gt := by
  intro hac
  cases hab : cmp a b with
  | gt => exact h₁ hab
  | eq =>
    rw [(heq a b).mp hab] at hac
    exact h₂ hac
  | lt =>
    have hba : cmp b a = .gt := by rw [hswap, hab]; rfl
    exact h₂ (cmp_gt_trans cmp hswap hlt hba hac)

theorem nameLe_total (a b : String) : nameLe a b = true ∨ nameLe b a = true := by
  simp only [nameLe, decide_eq_true_eq]
  exact cmpLe_total strCmp strCmp_swap (casefold a) (casefold b)

theorem nameLe_trans (a b c : String) (h₁ : nameLe a b = true)
    (h₂ : nameLe b c = true) : nameLe a c = true := by
  simp only [nameLe, decide_eq_true_eq] at *
  exact cmpLe_trans strCmp strCmp_eq_iff strCmp_swap strCmp_lt_trans h₁ h₂

/-! ## Properties of `latest_versions` -/

theorem versionGe_refl (w : Wheel) : versionGe w w = true := by
  simp [versionGe, looseCmp_self]

/-- In a descending-sorted list dominated by `w₀`, the leading run of wheels
with `w₀`'s loose version is the set of all of them: once a strictly smaller
version is reached, no later wheel can be back at the maximum. -/
theorem takeWhile_eq_filter_of_sorted (w₀ : Wheel) :
    ∀ (s : List Wheel), s.Pairwise (fun a b => versionGe a b = true) →
      (∀ w ∈ s, versionGe w₀ w = true) →
      s.takeWhile (fun w => w.loose_version = w₀.loose_version) =
        s.filter (fun w => w.loose_version = w₀.loose_version) := by
  intro s
  induction s with
  | nil => intro _ _; rfl
  | cons w s' ih =>
    intro hs htop
    rw [List.pairwise_cons] at hs
    rw [List.takeWhile_cons, List.filter_cons]
    by_cases hw : w.loose_version = w₀.loose_version
    · rw [ih hs.2 (fun v hv => htop v (by simp [hv]))]
      simp [hw]
    · rw [if_neg (by simp [hw]), if_neg (by simp [hw])]
      symm
      rw [List.filter_eq_nil_iff]
      intro v hv hveq
      rw [decide_eq_true_eq] at hveq
      have h₁ : versionGe w v = true := hs.1 v hv
      have h₂ : versionGe w₀ w = true := htop w (by simp)
      simp only [versionGe, decide_eq_true_eq] at h₁ h₂
      rw [hveq] at h₁
      exact hw (cmpGe_antisymm looseCmp looseCmp_eq_iff looseCmp_swap h₁ h₂)

/-- The per-group behaviour of `latest_versions`: on a non-empty group it
returns exactly the wheels whose loose version is maximal in the group. -/
theorem latestGroup_spec (l : List Wheel) (hne : l ≠ []) :
    ∃ g, latestGroup l = some g ∧ g.Perm (l.filter (isLatestIn l)) := by
  have hperm := pySort_perm versionGe l
  cases hs : pySort versionGe l with
  | nil =>
    rw [hs] at hperm
    exact absurd hperm.symm.eq_nil hne
  | cons w₀ rest =>
    rw [hs] at hperm
    have hsorted := pySort_sorted versionGe versionGe_total versionGe_trans l
    rw [hs] at hsorted
    have htop : ∀ w ∈ w₀ :: rest, versionGe w₀ w = true := by
      intro w hw
      rcases List.mem_cons.mp hw with rfl | hw
      · exact versionGe_refl w
      · exact (List.pairwise_cons.mp hsorted).1 w hw
    refine ⟨(w₀ :: rest).takeWhile (fun w => w.loose_version = w₀.loose_version), ?_, ?_⟩
    · rw [latestGroup, hs]
    · rw [takeWhile_eq_filter_of_sorted w₀ _ hsorted htop]
      have hstep := hperm.filter (fun w => decide (w.loose_version = w₀.loose_version))
      have hcongr : List.filter (fun w => decide (w.loose_version = w₀.loose_version)) l
          = List.filter (fun w => isLatestIn l w) l := by
        apply List.filter_congr
        intro w hwl
        rw [Bool.eq_iff_iff]
        simp only [decide_eq_true_eq, isLatestIn, List.all_eq_true]
        constructor
        · intro hl v hv
          simp only [versionGe, decide_eq_true_eq]
          rw [hl]
          have h₃ := htop v (hperm.mem_iff.mpr hv)
          simpa [versionGe, decide_eq_true_eq] using h₃
        · intro hall
          have h₁ : versionGe w w₀ = true := hall w₀ (hperm.mem_iff.mp (by simp))
          have h₂ : versionGe w₀ w = true := htop w (hperm.mem_iff.mpr hwl)
          simp only [versionGe, decide_eq_true_eq] at h₁ h₂
          exact cmpGe_antisymm looseCmp looseCmp_eq_iff looseCmp_swap h₁ h₂
      exact hstep.trans (hcongr ▸ List.Perm.refl _)

/-- C1: for every non-empty group of artifacts sharing a name (with
pairwise-defined loose comparisons, the domain on which the source does not
raise `TypeError`), `latest_versions` succeeds and returns, per group,
exactly the artifacts whose loose version is maximal in that group. -/
theorem latest_versions_latest_of_each_group :
    ∀ (wheels : List (String × List Wheel)),
      (∀ p ∈ wheels, p.2 ≠ []) →
      (∀ p ∈ wheels, ∀ u ∈ p.2, ∀ v ∈ p.2,
        (looseCmpO u.loose_version v.loose_version).isSome = true) →
      ∃ m, latest_versions wheels = some m ∧
        List.Forall₂ (fun p q => q.1 = p.1 ∧ q.2.Perm (p.2.filter (isLatestIn p.2)))
          wheels m
  | [], _, _ => ⟨[], rfl, List.Forall₂.nil⟩
  | p :: ps, hne, hdef => by
    obtain ⟨g, hg, hgp⟩ := latestGroup_spec p.2 (hne p (by simp))
    obtain ⟨m, hm, hmf⟩ := latest_versions_latest_of_each_group ps
      (fun q hq => hne q (by simp [hq])) (fun q hq => hdef q (by simp [hq]))
    refine ⟨(p.1, g) :: m, ?_, List.Forall₂.cons ⟨rfl, hgp⟩ hmf⟩
    rw [latest_versions] at hm ⊢
    rw [List.mapM_cons, hg, hm]
    rfl

/-- C1 witness: the version multiset `{1.3.2, 1.3.1, 1.3.1, 1.3.1, 1.2.0,
1.3}` satisfies the hypotheses, and the reduced group consists exactly of the
single artifact at version `1.3.2`. -/
theorem latest_versions_latest_of_each_group_witness :
    (∀ p ∈ [("netCDF4", exampleGroup)], p.2 ≠ []) ∧
    (∀ p ∈ [("netCDF4", exampleGroup)], ∀ u ∈ p.2, ∀ v ∈ p.2,
      (looseCmpO u.loose_version v.loose_version).isSome = true) ∧
    (∃ m, latest_versions [("netCDF4", exampleGroup)] = some m ∧
      List.Forall₂ (fun p q => q.1 = p.1 ∧ q.2.Perm (p.2.filter (isLatestIn p.2)))
        [("netCDF4", exampleGroup)] m) ∧
    latest_versions [("netCDF4", exampleGroup)] =
      some [("netCDF4", [netcdfWheel "1.3.2" "cp36" "cp36m"])] :=
  ⟨by decide, by decide,
   latest_versions_latest_of_each_group _ (by decide) (by decide), by decide⟩

/-- C8 counterexample: on a mapping containing an empty group,
`latest_versions` does not skip the group and continue — `wheel_list[0]`
raises `IndexError` (modelled by `none`), so no result at all is produced,
not even for the non-empty remaining group. -/
theorem latest_versions_empty_group_counterexample :
    latest_versions [("empty", ([] : List Wheel)),
      ("torch_cpu", [netcdfWheel "0.4.0" "cp36" "cp36m"])] = none ∧
    ∀ m, latest_versions [("empty", ([] : List Wheel)),
      ("torch_cpu", [netcdfWheel "0.4.0" "cp36" "cp36m"])] ≠ some m := by
  have h0 : latest_versions [("empty", ([] : List Wheel)),
      ("torch_cpu", [netcdfWheel "0.4.0" "cp36" "cp36m"])] = none := by decide
  exact ⟨h0, fun m h => Option.noConfusion (h0 ▸ h)⟩

/-- C8 amended: `latest_versions` does not handle an empty group: whenever
the input mapping contains a name with an empty list, the whole call raises
(`IndexError` from `wheel_list[0]`, modelled by `none`) instead of skipping
the group. -/
theorem latest_versions_empty_group_raises :
    ∀ (wheels : List (String × List Wheel)) (n : String),
      (n, ([] : List Wheel)) ∈ wheels → latest_versions wheels = none
  | p :: ps, n, h => by
    rw [latest_versions, List.mapM_cons]
    rcases List.mem_cons.mp h with heq | hmem
    · rw [← heq]
      rfl
    · have hp := latest_versions_empty_group_raises ps n hmem
      rw [latest_versions] at hp
      simp only [hp]
      cases hfp : (latestGroup p.2).map (fun l => (p.1, l)) <;> rfl

/-- C8 amended witness: a concrete mapping with an empty group makes
`latest_versions` raise. -/
theorem latest_versions_empty_group_raises_witness :
    (("empty", ([] : List Wheel)) ∈ [("empty", ([] : List Wheel))]) ∧
    latest_versions [("empty", ([] : List Wheel))] = none :=
  ⟨by decide, latest_versions_empty_group_raises _ "empty" (by decide)⟩

/-- C4: `sort` visits the group names in case-insensitive ascending order
(a permutation of the dict keys), and within each group the three successive
stable single-key sorts (python descending, then arch descending, then loose
version descending) produce a permutation of the group ordered with primary
key loose version descending, secondary key architecture descending and
tertiary key runtime tag descending (`wheelOrdered`).  The hypothesis
confines the statement to groups on which the loose comparisons are defined
(no `TypeError` in the source). -/
theorem sort_orders_names_and_groups (wheels : List (String × List Wheel))
    (columns : List Column)
    (hdef : ∀ p ∈ wheels, ∀ u ∈ p.2, ∀ v ∈ p.2,
      (looseCmpO u.loose_version v.loose_version).isSome = true) :
    sortTable wheels columns = (sortedNames wheels).flatMap
      (fun n => (sortGroup (groupFor wheels n)).map (fun w => columns.map (wheelColumn w))) ∧
    (sortedNames wheels).Perm (wheels.map Prod.fst) ∧
    (sortedNames wheels).Pairwise (fun a b => nameLe a b = true) ∧
    ∀ p ∈ wheels, (sortGroup p.2).Perm p.2 ∧ (sortGroup p.2).Pairwise wheelOrdered := by
  refine ⟨rfl, pySort_perm nameLe (wheels.map Prod.fst),
    pySort_sorted nameLe nameLe_total nameLe_trans _, ?_⟩
  intro p _
  constructor
  · exact (pySort_perm versionGe _).trans
      ((pySort_perm archGe _).trans (pySort_perm pythonGe _))
  · have h₁ : (pySort pythonGe p.2).Pairwise (fun a b => pythonGe a b = true) :=
      pySort_sorted pythonGe pythonGe_total pythonGe_trans p.2
    have h₂ := pySort_pairwise archGe archGe_total archGe_trans
      (fun a b => pythonGe a b = true) (pySort pythonGe p.2) h₁
    have h₃ := pySort_pairwise versionGe versionGe_total versionGe_trans
      (fun a b => archGe a b = true ∧ (archGe b a = true → pythonGe a b = true))
      (pySort archGe (pySort pythonGe p.2)) h₂
    exact h₃

/-- C4 witness: a concrete one-group mapping exercising all three keys; the
table comes out ordered by version desc, then arch desc, then python desc. -/
theorem sort_orders_names_and_groups_witness :
    (∀ p ∈ sortExample, ∀ u ∈ p.2, ∀ v ∈ p.2,
      (looseCmpO u.loose_version v.loose_version).isSome = true) ∧
    ((sortedNames sortExample).Perm (sortExample.map Prod.fst) ∧
     (sortedNames sortExample).Pairwise (fun a b => nameLe a b = true) ∧
     ∀ p ∈ sortExample, (sortGroup p.2).Perm p.2 ∧ (sortGroup p.2).Pairwise wheelOrdered) ∧
    sortTable sortExample [.name, .version, .build, .python, .arch] =
      [[some "netCDF4", some "1.4.0", none, some "cp27", some "generic"],
       [some "netCDF4", some "1.3.1", none, some "cp36", some "avx2"],
       [some "netCDF4", some "1.3.1", none, some "cp35", some "avx2"],
       [some "netCDF4", some "1.3.1", none, some "cp36", some "avx"],
       [some "netCDF4", some "1.2.8", none, some "cp27", some "generic"]] := by
  refine ⟨by decide, ?_, by decide⟩
  have h := sort_orders_names_and_groups sortExample
    [.name, .version, .build, .python, .arch] (by decide)
  exact ⟨h.2.1, h.2.2.1, h.2.2.2⟩

/-! ## Properties of the tag parser -/

/-- A maximal class run stops exactly at the first character outside the
class. -/
theorem takeWhile_token {p : Char → Bool} {tok rest : List Char} {c : Char}
    (htok : ∀ x ∈ tok, p x = true) (hc : p c = false) :
    (tok ++ c :: rest).takeWhile p = tok := by
  rw [List.takeWhile_append_of_pos htok, List.takeWhile_cons, hc]
  simp

/-- Consuming a maximal class run leaves the first character outside the
class in place. -/
theorem dropWhile_token {p : Char → Bool} {tok rest : List Char} {c : Char}
    (htok : ∀ x ∈ tok, p x = true) (hc : p c = false) :
    (tok ++ c :: rest).dropWhile p = c :: rest := by
  rw [List.dropWhile_append_of_pos htok, List.dropWhile_cons, hc]
  simp

/-- A word character is also a word-or-dot character. -/
theorem isWordDot_of_isWordChar {c : Char} (h : isWordChar c = true) :
    isWordDot c = true := by
  simp [isWordDot, h]

/-- The capture of the lazy build group is either the capture it started
with or a non-empty token: the group's `\w+` consumes at least one
character. -/
theorem matchStarF_build : ∀ (fuel : Nat) (b b' : Option (List Char))
    (s py ab pl : List Char),
    matchStarF fuel b s = some (b', py, ab, pl) →
    b' = b ∨ ∃ r, b' = some r ∧ r ≠ []
  | 0, b, b', s, py, ab, pl, h => by simp [matchStarF] at h
  | fuel + 1, b, b', s, py, ab, pl, h => by
    simp only [matchStarF] at h
    cases ht : matchTail s with
    | some x =>
      obtain ⟨x₁, x₂, x₃⟩ := x
      rw [ht] at h
      simp only [Option.some.injEq, Prod.mk.injEq] at h
      exact Or.inl h.1.symm
    | none =>
      cases s with
      | nil =>
        simp only [ht] at h
        exact Option.noConfusion h
      | cons c rest =>
        simp only [ht] at h
        by_cases hc : (decide (c = '+') || decide (c = '-')) = true
        · rw [if_pos hc] at h
          by_cases hr : (rest.takeWhile isWordChar).isEmpty = true
          · rw [if_pos hr] at h
            exact Option.noConfusion h
          · rw [if_neg hr] at h
            have ih := matchStarF_build fuel (some (rest.takeWhile isWordChar)) b'
              (rest.dropWhile isWordChar) py ab pl h
            have hne : rest.takeWhile isWordChar ≠ [] := by
              intro hnil
              rw [hnil] at hr
              exact hr rfl
            rcases ih with heq | hex
            · exact Or.inr ⟨rest.takeWhile isWordChar, heq, hne⟩
            · exact Or.inr hex
        · rw [if_neg hc] at h
          exact Option.noConfusion h

/-- The build capture of a successful `WHEEL_RE` match is absent or a
non-empty token. -/
theorem wheelMatch_build (s : List Char) (t : Tags) (h : wheelMatch s = some t) :
    t.build = none ∨ ∃ r, t.build = some r ∧ r ≠ [] := by
  simp only [wheelMatch] at h
  split at h
  · exact Option.noConfusion h
  · split at h
    · split at h
      · exact Option.noConfusion h
      · split at h
        · split at h
          · rename_i b py ab pl hm
            injection h with h₀
            rw [← h₀]
            exact matchStarF_build _ none b _ py ab pl hm
          · exact Option.noConfusion h
        · exact Option.noConfusion h
    · exact Option.noConfusion h

/-- C2: a successful parse never yields an empty-string build (an absent
build tag is `None`), and the two reference filenames parse to exactly the
documented tags. -/
theorem parse_tags_roundtrip (s : String) (w : Wheel)
    (h : Wheel.parse_tags s = .ok w) :
    w.build ≠ some "" ∧
    (s = "avx2/netCDF4-1.3.1-cp36-cp36m-linux_x86_64.whl" →
      w = ⟨s, "avx2", "netCDF4", "1.3.1", none, "cp36", "cp36m", "linux_x86_64"⟩) ∧
    (s = "avx/tensorflow_cpu-1.6.0+computecanada-cp36-cp36m-linux_x86_64.whl" →
      w.build = some "computecanada" ∧ w.version = "1.6.0") := by
  refine ⟨?_, ?_, ?_⟩
  · simp only [Wheel.parse_tags] at h
    cases hm : wheelMatch s.toList with
    | none =>
      rw [hm] at h
      exact Except.noConfusion h
    | some t =>
      rw [hm] at h
      injection h with h₀
      rw [← h₀]
      show t.build.map List.asString ≠ some ""
      rcases wheelMatch_build _ _ hm with hb | ⟨r, hb, hr⟩
      · simp [hb]
      · rw [hb]
        intro hc
        have hc₂ : List.asString r = "" := by injection hc
        exact hr (congrArg String.data hc₂)
  · intro hs
    subst hs
    have hok : Wheel.parse_tags "avx2/netCDF4-1.3.1-cp36-cp36m-linux_x86_64.whl" =
        .ok ⟨"avx2/netCDF4-1.3.1-cp36-cp36m-linux_x86_64.whl", "avx2", "netCDF4",
             "1.3.1", none, "cp36", "cp36m", "linux_x86_64"⟩ := by rfl
    rw [hok] at h
    injection h with h₀
    exact h₀.symm
  · intro hs
    subst hs
    have hok : Wheel.parse_tags
        "avx/tensorflow_cpu-1.6.0+computecanada-cp36-cp36m-linux_x86_64.whl" =
        .ok tensorflowWheel := by rfl
    rw [hok] at h
    injection h with h₀
    rw [← h₀]
    exact ⟨rfl, rfl⟩

/-- C2 witness: the tensorflow filename parses, its build is the non-empty
`computecanada`, and the instantiated conclusions hold. -/
theorem parse_tags_roundtrip_witness :
    Wheel.parse_tags "avx/tensorflow_cpu-1.6.0+computecanada-cp36-cp36m-linux_x86_64.whl" =
      .ok tensorflowWheel ∧
    (tensorflowWheel.build ≠ some "" ∧
      ("avx/tensorflow_cpu-1.6.0+computecanada-cp36-cp36m-linux_x86_64.whl" =
          "avx2/netCDF4-1.3.1-cp36-cp36m-linux_x86_64.whl" →
        tensorflowWheel =
          ⟨"avx/tensorflow_cpu-1.6.0+computecanada-cp36-cp36m-linux_x86_64.whl",
           "avx2", "netCDF4", "1.3.1", none, "cp36", "cp36m", "linux_x86_64"⟩) ∧
      ("avx/tensorflow_cpu-1.6.0+computecanada-cp36-cp36m-linux_x86_64.whl" =
          "avx/tensorflow_cpu-1.6.0+computecanada-cp36-cp36m-linux_x86_64.whl" →
        tensorflowWheel.build = some "computecanada" ∧
        tensorflowWheel.version = "1.6.0")) :=
  ⟨by rfl, parse_tags_roundtrip _ _ (by rfl)⟩

/-- C10: the version group of `WHEEL_RE` is optional, so a filename with two
consecutive dashes after the name parses successfully with the empty string
as version (not a failure). -/
theorem parse_tags_empty_version :
    Wheel.parse_tags "avx2/foo--cp36-cp36m-linux_x86_64.whl" =
      .ok ⟨"avx2/foo--cp36-cp36m-linux_x86_64.whl", "avx2", "foo", "", none,
           "cp36", "cp36m", "linux_x86_64"⟩ := by rfl

/-- C7: whenever `WHEEL_RE` does not match (which covers every malformed
filename of the spec: missing name segment, missing separator, malformed
runtime/abi/platform), `parse_tags` fails with the single descriptive error
naming the whole input, and never returns an artifact. -/
theorem parse_tags_malformed (s : String) (h : wheelMatch s.toList = none) :
    Wheel.parse_tags s = .error ("Could not get tags for : " ++ s) ∧
    ∀ w : Wheel, Wheel.parse_tags s ≠ .ok w := by
  have he : Wheel.parse_tags s = .error ("Could not get tags for : " ++ s) := by
    simp only [Wheel.parse_tags, h]
  exact ⟨he, fun w hw => Except.noConfusion (he ▸ hw)⟩

/-- C7 witness: the three malformed inputs (missing name segment, missing
separator before the runtime tag, missing separator between runtime and abi)
all fail identically with the error naming the whole filename. -/
theorem parse_tags_malformed_witness :
    (wheelMatch "avx2/1.3.1-cp36-cp36m-linux_x86_64.whl".toList = none ∧
     Wheel.parse_tags "avx2/1.3.1-cp36-cp36m-linux_x86_64.whl" =
       .error ("Could not get tags for : " ++ "avx2/1.3.1-cp36-cp36m-linux_x86_64.whl")) ∧
    (wheelMatch "avx2/netCDF4-1.3.1.cp36-cp36m-linux_x86_64.whl".toList = none ∧
     Wheel.parse_tags "avx2/netCDF4-1.3.1.cp36-cp36m-linux_x86_64.whl" =
       .error ("Could not get tags for : " ++ "avx2/netCDF4-1.3.1.cp36-cp36m-linux_x86_64.whl")) ∧
    (wheelMatch "avx2/netCDF4-1.3.1-cp36cp36m-linux_x86_64.whl".toList = none ∧
     Wheel.parse_tags "avx2/netCDF4-1.3.1-cp36cp36m-linux_x86_64.whl" =
       .error ("Could not get tags for : " ++ "avx2/netCDF4-1.3.1-cp36cp36m-linux_x86_64.whl")) :=
  ⟨⟨by decide, (parse_tags_malformed _ (by decide)).1⟩,
   ⟨by decide, (parse_tags_malformed _ (by decide)).1⟩,
   ⟨by decide, (parse_tags_malformed _ (by decide)).1⟩⟩

/-- The pattern tail accepts three dash-separated tokens followed by any
non-word character. -/
theorem matchTail_tokens (py ab pl tl : List Char) (c : Char)
    (hpy : py ≠ []) (hpyw : ∀ x ∈ py, isWordDot x = true)
    (hab : ab ≠ []) (habw : ∀ x ∈ ab, isWordChar x = true)
    (hpl : pl ≠ []) (hplw : ∀ x ∈ pl, isWordChar x = true)
    (hc : isWordChar c = false) :
    matchTail ('-' :: (py ++ '-' :: (ab ++ '-' :: (pl ++ c :: tl)))) =
      some (py, ab, pl) := by
  have hd : isWordDot '-' = false := by decide
  have hw : isWordChar '-' = false := by decide
  have hpyE : py.isEmpty = false := by
    cases py with
    | nil => exact absurd rfl hpy
    | cons a as => rfl
  have habE : ab.isEmpty = false := by
    cases ab with
    | nil => exact absurd rfl hab
    | cons a as => rfl
  have hplE : pl.isEmpty = false := by
    cases pl with
    | nil => exact absurd rfl hpl
    | cons a as => rfl
  simp only [matchTail, takeWhile_token hpyw hd, dropWhile_token hpyw hd, hpyE,
    takeWhile_token habw hw, dropWhile_token habw hw, habE,
    takeWhile_token hplw hc, hplE, Bool.false_eq_true, if_false]

/-- The lazy group prefers zero iterations: when the tail matches at once,
the star returns immediately with the incoming build capture. -/
theorem matchStar_of_tail (b : Option (List Char)) (s py ab pl : List Char)
    (h : matchTail s = some (py, ab, pl)) :
    matchStar b s = some (b, py, ab, pl) := by
  rw [matchStar]
  simp only [matchStarF, h]

/-- The full match on a grammar-form filename with a dash-separated build
token: the tail matches at the first opportunity, so the build token is
captured as the python tag, the runtime token as the abi tag and the abi
token as the platform tag, while `build` stays `None` and the real platform
token and the extension are left unconsumed. -/
theorem wheelMatch_dash_build (arch name ver bld rt abi plat ext : List Char)
    (harch : arch ≠ []) (harchw : ∀ c ∈ arch, isWordChar c = true)
    (hname : name ≠ []) (hnamew : ∀ c ∈ name, isWordDot c = true)
    (hverw : ∀ c ∈ ver, isWordDot c = true)
    (hbld : bld ≠ []) (hbldw : ∀ c ∈ bld, isWordChar c = true)
    (hrt : rt ≠ []) (hrtw : ∀ c ∈ rt, isWordChar c = true)
    (habi : abi ≠ []) (habiw : ∀ c ∈ abi, isWordChar c = true) :
    wheelMatch (arch ++ '/' :: (name ++ '-' :: (ver ++ '-' :: (bld ++ '-' ::
        (rt ++ '-' :: (abi ++ '-' :: (plat ++ '.' :: ext))))))) =
      some ⟨arch, name, ver, none, bld, rt, abi⟩ := by
  have hslash : isWordChar '/' = false := by decide
  have hdashD : isWordDot '-' = false := by decide
  have hdashW : isWordChar '-' = false := by decide
  have harchE : arch.isEmpty = false := by
    cases arch with
    | nil => exact absurd rfl harch
    | cons a as => rfl
  have hnameE : name.isEmpty = false := by
    cases name with
    | nil => exact absurd rfl hname
    | cons a as => rfl
  have hbldwd : ∀ c ∈ bld, isWordDot c = true :=
    fun c hc => isWordDot_of_isWordChar (hbldw c hc)
  have htail : matchTail ('-' :: (bld ++ '-' :: (rt ++ '-' ::
      (abi ++ '-' :: (plat ++ '.' :: ext))))) = some (bld, rt, abi) :=
    matchTail_tokens bld rt abi (plat ++ '.' :: ext) '-'
      hbld hbldwd hrt hrtw habi habiw hdashW
  have hstar := matchStar_of_tail none _ _ _ _ htail
  simp only [wheelMatch, takeWhile_token harchw hslash, dropWhile_token harchw hslash,
    harchE, takeWhile_token hnamew hdashD, dropWhile_token hnamew hdashD, hnameE,
    takeWhile_token hverw hdashD, dropWhile_token hverw hdashD, hstar,
    Bool.false_eq_true, if_false]

/-- C3 counterexample: on the grammar-form filename
`avx/pkg-1.0-mybuild-cp36-cp36m-linux_x86_64.whl`, whose build token
`mybuild` is separated by a dash, the parser does not put `mybuild` into the
build field with `cp36`/`cp36m`/`linux_x86_64` as the following three tags;
it returns `build = None` and `mybuild` as the runtime tag instead. -/
theorem parse_tags_dash_build_counterexample :
    Wheel.parse_tags "avx/pkg-1.0-mybuild-cp36-cp36m-linux_x86_64.whl" =
      .ok ⟨"avx/pkg-1.0-mybuild-cp36-cp36m-linux_x86_64.whl", "avx", "pkg", "1.0",
           none, "mybuild", "cp36", "cp36m"⟩ ∧
    ¬ ∃ w : Wheel,
        Wheel.parse_tags "avx/pkg-1.0-mybuild-cp36-cp36m-linux_x86_64.whl" = .ok w ∧
        w.build = some "mybuild" ∧ w.python = "cp36" ∧ w.abi = "cp36m" ∧
        w.platform = "linux_x86_64" := by
  have h0 : Wheel.parse_tags "avx/pkg-1.0-mybuild-cp36-cp36m-linux_x86_64.whl" =
      .ok ⟨"avx/pkg-1.0-mybuild-cp36-cp36m-linux_x86_64.whl", "avx", "pkg", "1.0",
           none, "mybuild", "cp36", "cp36m"⟩ := by rfl
  refine ⟨h0, ?_⟩
  rintro ⟨w, hw, hb, -⟩
  rw [h0] at hw
  injection hw with h₁
  rw [← h₁] at hb
  exact Option.noConfusion hb

/-- C3 amended: for every filename of the grammar form
`<arch>/<name>-<ver>-<build>-<rt>-<abi>-<plat>.<ext>` in which the build
token is present and separated by a dash, the lazy non-capturing build group
matches zero iterations (its tail matches first), so the parser returns
`build = None`, the build token as `runtime_tag`, the runtime token as
`abi_tag` and the abi token as `platform_tag`; the platform token and the
extension are left unconsumed. -/
theorem parse_tags_dash_build (arch name ver bld rt abi plat ext : List Char)
    (harch : arch ≠ []) (harchw : ∀ c ∈ arch, isWordChar c = true)
    (hname : name ≠ []) (hnamew : ∀ c ∈ name, isWordDot c = true)
    (hverw : ∀ c ∈ ver, isWordDot c = true)
    (hbld : bld ≠ []) (hbldw : ∀ c ∈ bld, isWordChar c = true)
    (hrt : rt ≠ []) (hrtw : ∀ c ∈ rt, isWordChar c = true)
    (habi : abi ≠ []) (habiw : ∀ c ∈ abi, isWordChar c = true) :
    Wheel.parse_tags (List.asString (arch ++ '/' :: (name ++ '-' :: (ver ++ '-' ::
        (bld ++ '-' :: (rt ++ '-' :: (abi ++ '-' :: (plat ++ '.' :: ext)))))))) =
      .ok ⟨List.asString (arch ++ '/' :: (name ++ '-' :: (ver ++ '-' :: (bld ++ '-' ::
              (rt ++ '-' :: (abi ++ '-' :: (plat ++ '.' :: ext))))))),
           arch.asString, name.asString, ver.asString, none,
           bld.asString, rt.asString, abi.asString⟩ := by
  have hm := wheelMatch_dash_build arch name ver bld rt abi plat ext
    harch harchw hname hnamew hverw hbld hbldw hrt hrtw habi habiw
  have hid : (List.asString (arch ++ '/' :: (name ++ '-' :: (ver ++ '-' :: (bld ++ '-' ::
      (rt ++ '-' :: (abi ++ '-' :: (plat ++ '.' :: ext)))))))).toList =
      arch ++ '/' :: (name ++ '-' :: (ver ++ '-' :: (bld ++ '-' ::
      (rt ++ '-' :: (abi ++ '-' :: (plat ++ '.' :: ext)))))) := rfl
  simp only [Wheel.parse_tags, hid, hm]
  rfl

/-- C3 amended witness: the concrete grammar-form filename
`avx/pkg-1.0-mybuild-cp36-cp36m-linux_x86_64.whl`. -/
theorem parse_tags_dash_build_witness :
    ("avx".toList ≠ [] ∧ (∀ c ∈ "avx".toList, isWordChar c = true)) ∧
    ("pkg".toList ≠ [] ∧ (∀ c ∈ "pkg".toList, isWordDot c = true)) ∧
    (∀ c ∈ "1.0".toList, isWordDot c = true) ∧
    ("mybuild".toList ≠ [] ∧ (∀ c ∈ "mybuild".toList, isWordChar c = true)) ∧
    ("cp36".toList ≠ [] ∧ (∀ c ∈ "cp36".toList, isWordChar c = true)) ∧
    ("cp36m".toList ≠ [] ∧ (∀ c ∈ "cp36m".toList, isWordChar c = true)) ∧
    Wheel.parse_tags (List.asString ("avx".toList ++ '/' :: ("pkg".toList ++ '-' ::
        ("1.0".toList ++ '-' :: ("mybuild".toList ++ '-' :: ("cp36".toList ++ '-' ::
        ("cp36m".toList ++ '-' :: ("linux_x86_64".toList ++ '.' :: "whl".toList)))))))) =
      .ok ⟨List.asString ("avx".toList ++ '/' :: ("pkg".toList ++ '-' ::
              ("1.0".toList ++ '-' :: ("mybuild".toList ++ '-' :: ("cp36".toList ++ '-' ::
              ("cp36m".toList ++ '-' :: ("linux_x86_64".toList ++ '.' :: "whl".toList))))))),
           "avx".toList.asString, "pkg".toList.asString, "1.0".toList.asString, none,
           "mybuild".toList.asString, "cp36".toList.asString, "cp36m".toList.asString⟩ :=
  ⟨⟨by decide, by decide⟩, ⟨by decide, by decide⟩, by decide,
   ⟨by decide, by decide⟩, ⟨by decide, by decide⟩, ⟨by decide, by decide⟩,
   parse_tags_dash_build "avx".toList "pkg".toList "1.0".toList "mybuild".toList
     "cp36".toList "cp36m".toList "linux_x86_64".toList "whl".toList
     (by decide) (by decide) (by decide) (by decide) (by decide)
     (by decide) (by decide) (by decide) (by decide) (by decide) (by decide)⟩

/-! ## The compatibility check and the collector -/

/-- C6: the compatibility check returns `false` for every artifact when the
requested runtime set is absent (`None`) or empty, and otherwise returns
`true` iff the artifact's runtime tag appears in the compatible-tag set of
at least one requested runtime version of the static `COMPATIBLE_PYTHON`
mapping (whose keys the CLI restricts to `AVAILABLE_PYTHONS`). -/
theorem is_compatible_spec (w : Wheel) (ps : List String)
    (hvalid : ∀ p ∈ ps, p ∈ AVAILABLE_PYTHONS) :
    is_compatible w none = false ∧
    is_compatible w (some []) = false ∧
    (is_compatible w (some ps) = true ↔ ∃ p ∈ ps, w.python ∈ COMPATIBLE_PYTHON p) := by
  refine ⟨rfl, rfl, ?_⟩
  simp only [is_compatible, compatibleAny, List.any_eq_true]
  constructor
  · rintro ⟨p, hp, hc⟩
    refine ⟨p, hp, ?_⟩
    rwa [List.contains, List.elem_iff] at hc
  · rintro ⟨p, hp, hc⟩
    refine ⟨p, hp, ?_⟩
    rwa [List.contains, List.elem_iff]

/-- C6 witness: a `cp27` artifact against the requested runtime `2.7`. -/
theorem is_compatible_spec_witness :
    (∀ p ∈ ["2.7"], p ∈ AVAILABLE_PYTHONS) ∧
    (is_compatible (sortExampleWheel "avx" "1.3.1" "cp27" "cp27mu") none = false ∧
     is_compatible (sortExampleWheel "avx" "1.3.1" "cp27" "cp27mu") (some []) = false ∧
     (is_compatible (sortExampleWheel "avx" "1.3.1" "cp27" "cp27mu") (some ["2.7"]) = true ↔
       ∃ p ∈ ["2.7"],
         (sortExampleWheel "avx" "1.3.1" "cp27" "cp27mu").python ∈ COMPATIBLE_PYTHON p)) :=
  ⟨by decide, is_compatible_spec _ _ (by decide)⟩

/-- Splitting the traversal over the first requested architecture. -/
theorem traversal_cons (fs : List (String × List String)) (b : String)
    (bs : List String) :
    traversal fs (b :: bs) = (walkFiles fs b).map (fun f => (b, f)) ++ traversal fs bs := by
  simp [traversal]

/-- C9: a requested architecture with no directory entry contributes nothing:
`os.walk` yields no files for it, the traversal is unchanged by dropping it,
and `get_wheels` returns the same result (no error is raised). -/
theorem get_wheels_missing_arch (fs : List (String × List String)) (archs : List String)
    (name version : String) (pythons : List String) (latest : Bool) (a : String)
    (h : ∀ p ∈ fs, p.1 ≠ a) :
    walkFiles fs a = [] ∧
    traversal fs archs = traversal fs (archs.filter (fun x => x ≠ a)) ∧
    get_wheels fs archs name version pythons latest =
      get_wheels fs (archs.filter (fun x => x ≠ a)) name version pythons latest := by
  have hw : walkFiles fs a = [] := by
    induction fs with
    | nil => rfl
    | cons p ps ih =>
      obtain ⟨p₁, p₂⟩ := p
      rw [walkFiles, if_neg (h (p₁, p₂) (by simp))]
      exact ih (fun q hq => h q (by simp [hq]))
  have ht : traversal fs archs = traversal fs (archs.filter (fun x => x ≠ a)) := by
    induction archs with
    | nil => rfl
    | cons b bs ih =>
      by_cases hb : b = a
      · subst hb
        rw [traversal_cons, hw, List.filter_cons]
        simp only [List.map_nil, List.nil_append]
        rw [if_neg (by simp)]
        exact ih
      · rw [traversal_cons, List.filter_cons, if_pos (by simp [hb]), traversal_cons, ih]
  refine ⟨hw, ht, ?_⟩
  rw [get_wheels, get_wheels, ht]

/-- Appending a wheel touches exactly its own name group, to which the wheel
is appended at the end. -/
theorem groupFor_addWheel : ∀ (m : List (String × List Wheel)) (w : Wheel) (n : String),
    groupFor (addWheel m w) n =
      if n = w.name then groupFor m n ++ [w] else groupFor m n
  | [], w, n => by
    by_cases h : n = w.name
    · subst h
      simp [addWheel, groupFor]
    · have h₂ : w.name ≠ n := fun hh => h hh.symm
      simp [addWheel, groupFor, h, h₂]
  | (k, l) :: rest, w, n => by
    by_cases hk : k = w.name <;> by_cases hn : n = w.name
    · have hkn : k = n := by rw [hk, hn]
      simp [addWheel, groupFor, hk, hkn, hn]
    · have hkn : ¬ k = n := fun hh => hn (hh.symm.trans hk)
      have hn₂ : ¬ w.name = n := fun hh => hn hh.symm
      simp [addWheel, groupFor, hk, hkn, hn, hn₂]
    · by_cases hkn : k = n
      · exact absurd (hkn.trans hn) hk
      · simp [addWheel, groupFor, hk, hkn, hn, groupFor_addWheel rest w w.name]
    · by_cases hkn : k = n
      · simp [addWheel, groupFor, hk, hkn, hn]
      · simp [addWheel, groupFor, hk, hkn, hn, groupFor_addWheel rest w n]

/-- Appending a wheel preserves the invariant that every group holds only
wheels of its own name. -/
theorem addWheel_wellNamed : ∀ (m : List (String × List Wheel)) (w : Wheel),
    (∀ p ∈ m, ∀ x ∈ p.2, x.name = p.1) →
    ∀ p ∈ addWheel m w, ∀ x ∈ p.2, x.name = p.1
  | [], w, _, p, hp, x, hx => by
    rw [addWheel] at hp
    rcases List.mem_singleton.mp hp with rfl
    rcases List.mem_singleton.mp hx with rfl
    rfl
  | (k, l) :: rest, w, h, p, hp, x, hx => by
    rw [addWheel] at hp
    by_cases hk : k = w.name
    · rw [if_pos hk] at hp
      rcases List.mem_cons.mp hp with rfl | hp
      · rcases List.mem_append.mp hx with hx | hx
        · exact h (k, l) (by simp) x hx
        · rcases List.mem_singleton.mp hx with rfl
          exact hk.symm
      · exact h p (by simp [hp]) x hx
    · rw [if_neg hk] at hp
      rcases List.mem_cons.mp hp with rfl | hp
      · exact h (k, l) (by simp) x hx
      · exact addWheel_wellNamed rest w (fun q hq => h q (by simp [hq])) p hp x hx

/-- The body of the collector's loops on one traversed file: it never fails
when glob-matched files parse, it adds one occurrence of exactly the wheels
hit by this file, and it preserves the naming invariant. -/
theorem processFile_spec (name version : String) (pythons : List String)
    (acc : List (String × List Wheel)) (arch file : String)
    (hp : fileMatches name version file = true →
      (Wheel.parse_tags (arch ++ "/" ++ file)).isOk = true) :
    ∃ acc', processFile name version pythons acc arch file = some acc' ∧
      (∀ w : Wheel, (groupFor acc' w.name).count w =
        (groupFor acc w.name).count w +
          (if hitFile name version pythons w (arch, file) = true then 1 else 0)) ∧
      ((∀ p ∈ acc, ∀ x ∈ p.2, x.name = p.1) →
        (∀ p ∈ acc', ∀ x ∈ p.2, x.name = p.1)) := by
  by_cases hfm : fileMatches name version file = true
  · have hok := hp hfm
    cases hpt : Wheel.parse_tags (arch ++ "/" ++ file) with
    | error e =>
      rw [hpt] at hok
      simp [Except.isOk, Except.toBool] at hok
    | ok w' =>
      by_cases hcmp : compatibleAny w' pythons = true
      · refine ⟨addWheel acc w', ?_, ?_, fun h => addWheel_wellNamed acc w' h⟩
        · rw [processFile, if_pos hfm]
          simp only [hpt]
          rw [if_pos hcmp]
        · intro w
          rw [groupFor_addWheel]
          have hhit : hitFile name version pythons w (arch, file) =
              decide (w' = w) := by
            rw [hitFile]
            simp only [hfm, Bool.true_and, hpt, hcmp, Bool.and_true]
          rw [hhit]
          by_cases hn : w.name = w'.name
          · rw [if_pos hn, List.count_append, List.count_singleton]
            by_cases hww : w' = w <;> simp [hww]
          · rw [if_neg hn]
            have hww : ¬ w' = w := fun hh => hn (by rw [hh])
            simp [hww]
      · refine ⟨acc, ?_, ?_, fun h => h⟩
        · rw [processFile, if_pos hfm]
          simp only [hpt]
          rw [if_neg hcmp]
        · intro w
          have hhit : hitFile name version pythons w (arch, file) = false := by
            rw [hitFile]
            simp only [hfm, Bool.true_and, hpt]
            by_cases hww : w' = w
            · subst hww
              simp [hcmp]
            · simp [hww]
          simp [hhit]
  · refine ⟨acc, ?_, ?_, fun h => h⟩
    · rw [processFile, if_neg hfm]
    · intro w
      have hhit : hitFile name version pythons w (arch, file) = false := by
        rw [hitFile]
        simp [hfm]
      simp [hhit]

/-- Folding the collector's loop body over a traversal whose glob-matched
files all parse: the fold succeeds and each wheel's multiplicity in its name
group grows by the number of traversed files that hit it. -/
theorem foldTraversal_spec (name version : String) (pythons : List String) :
    ∀ (ts : List (String × String)) (acc : List (String × List Wheel)),
      (∀ af ∈ ts, fileMatches name version af.2 = true →
        (Wheel.parse_tags (af.1 ++ "/" ++ af.2)).isOk = true) →
      (∀ p ∈ acc, ∀ x ∈ p.2, x.name = p.1) →
      ∃ m, ts.foldlM (fun acc af => processFile name version pythons acc af.1 af.2) acc
          = some m ∧
        (∀ p ∈ m, ∀ x ∈ p.2, x.name = p.1) ∧
        ∀ w : Wheel, (groupFor m w.name).count w =
          (groupFor acc w.name).count w + ts.countP (hitFile name version pythons w)
  | [], acc, _, hacc => ⟨acc, rfl, hacc, fun w => by simp⟩
  | (a, f) :: ts, acc, hp, hacc => by
    obtain ⟨acc', hstep, hcount, hnames⟩ :=
      processFile_spec name version pythons acc a f (hp (a, f) (by simp))
    obtain ⟨m, hm, hmn, hmc⟩ := foldTraversal_spec name version pythons ts acc'
      (fun q hq => hp q (by simp [hq])) (hnames hacc)
    refine ⟨m, ?_, hmn, ?_⟩
    · rw [List.foldlM_cons, hstep]
      simpa using hm
    · intro w
      rw [hmc w, hcount w, List.countP_cons]
      omega

/-- C5: when every traversed glob-matched file parses (otherwise the
collector raises on the first offender), `get_wheels` returns a grouping in
which every wheel sits in its own name's group, and the multiplicity of a
wheel in its group equals the number of traversed `(arch, file)` pairs that
case-insensitively match the glob, parse to that wheel, and are compatible
with a requested python — so a file compatible with several requested
runtimes is stored exactly once, and membership holds iff such a traversed
file exists. -/
theorem get_wheels_collects (fs : List (String × List String)) (archs : List String)
    (name version : String) (pythons : List String)
    (hp : ∀ af ∈ traversal fs archs, fileMatches name version af.2 = true →
      (Wheel.parse_tags (af.1 ++ "/" ++ af.2)).isOk = true) :
    ∃ m, get_wheels fs archs name version pythons false = some m ∧
      (∀ p ∈ m, ∀ x ∈ p.2, x.name = p.1) ∧
      (∀ w : Wheel, (groupFor m w.name).count w =
        (traversal fs archs).countP (hitFile name version pythons w)) ∧
      (∀ w : Wheel, w ∈ groupFor m w.name ↔
        ∃ af ∈ traversal fs archs, hitFile name version pythons w af = true) := by
  obtain ⟨m, hm, hmn, hmc⟩ := foldTraversal_spec name version pythons
    (traversal fs archs) [] hp (by intro p hp'; cases hp')
  have hmc' : ∀ w : Wheel, (groupFor m w.name).count w =
      (traversal fs archs).countP (hitFile name version pythons w) := by
    intro w
    have h := hmc w
    simpa [groupFor] using h
  refine ⟨m, ?_, hmn, hmc', ?_⟩
  · simp [get_wheels, hm]
  · intro w
    constructor
    · intro hw
      have h := List.count_pos_iff.mpr hw
      rw [hmc' w] at h
      exact List.countP_pos_iff.mp h
    · intro hex
      have h := List.countP_pos_iff.mpr hex
      rw [← hmc' w] at h
      exact List.count_pos_iff.mp h

/-- C5 witness: on the example filesystem with runtimes `["3.6"]`, the two
compatible netCDF4 wheels and the torch wheel are collected (each once), the
`cp27` wheel and the non-matching file are not. -/
theorem get_wheels_collects_witness :
    (∀ af ∈ traversal exampleFS ["avx2", "sse3"], fileMatches "" "" af.2 = true →
      (Wheel.parse_tags (af.1 ++ "/" ++ af.2)).isOk = true) ∧
    (∃ m, get_wheels exampleFS ["avx2", "sse3"] "" "" ["3.6"] false = some m ∧
      (∀ p ∈ m, ∀ x ∈ p.2, x.name = p.1) ∧
      (∀ w : Wheel, (groupFor m w.name).count w =
        (traversal exampleFS ["avx2", "sse3"]).countP (hitFile "" "" ["3.6"] w)) ∧
      (∀ w : Wheel, w ∈ groupFor m w.name ↔
        ∃ af ∈ traversal exampleFS ["avx2", "sse3"],
          hitFile "" "" ["3.6"] w af = true)) ∧
    get_wheels exampleFS ["avx2", "sse3"] "" "" ["3.6"] false =
      some [("netCDF4", [netcdfWheel "1.3.1" "cp36" "cp36m",
                         netcdfWheel "1.2.0" "cp36" "cp36m"]),
            ("torch_cpu", [⟨"avx2/torch_cpu-0.4.0-cp36-cp36m-linux_x86_64.whl", "avx2",
                            "torch_cpu", "0.4.0", none, "cp36", "cp36m", "linux_x86_64"⟩])] :=
  ⟨by decide, get_wheels_collects _ _ _ _ _ (by decide), by decide⟩

/-- C9 witness: requesting the absent `sse3` directory alongside `avx2`
changes nothing. -/
theorem get_wheels_missing_arch_witness :
    (∀ p ∈ exampleFS, p.1 ≠ "sse3") ∧
    (walkFiles exampleFS "sse3" = [] ∧
     traversal exampleFS ["avx2", "sse3"] =
       traversal exampleFS (["avx2", "sse3"].filter (fun x => x ≠ "sse3")) ∧
     get_wheels exampleFS ["avx2", "sse3"] "" "" ["3.6"] false =
       get_wheels exampleFS (["avx2", "sse3"].filter (fun x => x ≠ "sse3"))
         "" "" ["3.6"] false) :=
  ⟨by decide, get_wheels_missing_arch exampleFS ["avx2", "sse3"] "" "" ["3.6"] false
    "sse3" (by decide)⟩

end AvailWheels
